import Mathlib

/-!
Shallow embedding of the `cnabfixedwidth` crates (`cnab-fixedwidth/src/lib.rs`
and `cnab-derive/src/lib.rs`): fixed-width (CNAB-style) line parsing, schema
overlap validation, and the derive-generated typed binder.

Rust strings (`&str`) are modelled as `List Char` together with their UTF-8
byte structure: Rust's `&line[a..b]` slices by *byte* index and panics when an
index is out of range, when `a > b`, or when an index is not a character
boundary.  Machine integers (`i64`) are modelled as `Int` with explicit range
bounds; `usize` values are `Nat`.  A Rust panic is an explicit outcome
constructor, never an unmodelled case.
-/

namespace Cnab

/-- Number of bytes of the UTF-8 encoding of a character (Rust `char::len_utf8`). -/
def utf8Size (c : Char) : Nat :=
  if c.toNat < 0x80 then 1
  else if c.toNat < 0x800 then 2
  else if c.toNat < 0x10000 then 3
  else 4

/-- Byte length of a string (Rust `str::len`). -/
def utf8Len : List Char → Nat
  | [] => 0
  | c :: cs => utf8Size c + utf8Len cs

/-- Drop `n` bytes from the front of a string; `none` when `n` overruns the
string or falls inside a character (a byte position that is not a character
boundary). -/
def dropBytes : List Char → Nat → Option (List Char)
  | cs, 0 => some cs
  | [], _ + 1 => none
  | c :: cs, n + 1 =>
    if utf8Size c ≤ n + 1 then dropBytes cs (n + 1 - utf8Size c) else none

/-- Take `n` bytes from the front of a string; `none` when `n` overruns the
string or falls inside a character. -/
def takeBytes : List Char → Nat → Option (List Char)
  | _, 0 => some []
  | [], _ + 1 => none
  | c :: cs, n + 1 =>
    if utf8Size c ≤ n + 1 then (takeBytes cs (n + 1 - utf8Size c)).map (c :: ·) else none

/-- Rust byte-range slicing `&s[a..b]`: `some` slice when `a ≤ b ≤ s.len()` and
both `a` and `b` are character boundaries, otherwise `none` (Rust panics). -/
def byteSlice (cs : List Char) (a b : Nat) : Option (List Char) :=
  if a ≤ b then (dropBytes cs a).bind (fun t => takeBytes t (b - a)) else none

/-- Rust `char::is_whitespace`: the Unicode `White_Space` property. -/
def isRustWhitespace (c : Char) : Bool :=
  c.toNat == 0x09 || c.toNat == 0x0A || c.toNat == 0x0B || c.toNat == 0x0C ||
  c.toNat == 0x0D || c.toNat == 0x20 || c.toNat == 0x85 || c.toNat == 0xA0 ||
  c.toNat == 0x1680 || (0x2000 ≤ c.toNat && c.toNat ≤ 0x200A) ||
  c.toNat == 0x2028 || c.toNat == 0x2029 || c.toNat == 0x202F ||
  c.toNat == 0x205F || c.toNat == 0x3000

/-- Remove the longest suffix of characters satisfying `p` (the common shape of
Rust `trim_end`, `trim_end_matches`). -/
def trimEndBy (p : Char → Bool) (cs : List Char) : List Char :=
  (cs.reverse.dropWhile p).reverse

/-- Rust `str::trim_end`. -/
def rustTrimEnd (cs : List Char) : List Char :=
  trimEndBy isRustWhitespace cs

/-- Rust `str::trim_start`. -/
def rustTrimStart (cs : List Char) : List Char :=
  cs.dropWhile isRustWhitespace

/-- Rust `str::trim` (both ends). -/
def rustTrim (cs : List Char) : List Char :=
  rustTrimEnd (rustTrimStart cs)

/-- Source line 129: `line.trim_end_matches(&['\r', '\n'][..])`. -/
def trimEndCrlf (cs : List Char) : List Char :=
  trimEndBy (fun c => c == '\r' || c == '\n') cs

/-- Rust `char::is_ascii_digit`. -/
def isAsciiDigit (c : Char) : Bool :=
  '0' ≤ c && c ≤ '9'

/-- Numeric value denoted by a string of ASCII decimal digits. -/
def digitsToNat (cs : List Char) : Nat :=
  cs.foldl (fun a c => 10 * a + (c.toNat - 48)) 0

/-- Largest `i64` value, the overflow bound of `str::parse::<i64>` on an
all-digit (hence non-negative) string. -/
def i64Max : Nat := 2 ^ 63 - 1

/-- Source `FieldPos`: 1-based inclusive character positions.  The Rust field
named `end` is rendered `endPos` (`end` is a Lean keyword). -/
structure FieldPos where
  start : Nat
  endPos : Nat
deriving DecidableEq, Repr

/-- Source `FieldPos::as_range`: `(self.start - 1)..self.end`, the 0-based
half-open byte range used for slicing. -/
def FieldPos.as_range (p : FieldPos) : Nat × Nat :=
  (p.start - 1, p.endPos)

/-- Source `FieldPos::width`: `end - start + 1`. -/
def FieldPos.width (p : FieldPos) : Nat :=
  p.endPos - p.start + 1

/-- Source `FieldKind`. -/
inductive FieldKind where
  | Alpha
  | Numeric
  | Decimal (scale : Nat)
deriving DecidableEq, Repr

/-- Source `FieldSpec`. -/
structure FieldSpec where
  name : String
  pos : FieldPos
  kind : FieldKind
deriving DecidableEq, Repr

/-- Source `Value`: the tagged union of extracted values. -/
inductive Value where
  | Alpha (s : List Char)
  | Numeric (n : Int)
  | Decimal (raw : Int) (scale : Nat)
deriving DecidableEq, Repr

/-- Source `FixedWidthError`. -/
inductive FixedWidthError where
  | LineTooShort (len needed : Nat)
  | InvalidNumeric (field : String) (snippet : List Char)
  | InvalidUtf8
deriving DecidableEq, Repr

deriving instance DecidableEq for Except

/-- Field name carried by an error, when any: only `InvalidNumeric` names a
field. -/
def errFieldName : FixedWidthError → Option String
  | .InvalidNumeric f _ => some f
  | _ => none

/-- Per-kind coercion of an extracted slice, source lines 145-187 (the `match
field.kind` arms inside `parse_line`). -/
def coerceValue (kind : FieldKind) (name : String) (slice : List Char) :
    Except FixedWidthError Value :=
  match kind with
  | .Alpha => .ok (.Alpha (rustTrimEnd slice))
  | .Numeric =>
    let s := rustTrim slice
    if s = [] then .ok (.Numeric 0)
    else if ¬ (s.all isAsciiDigit) then .error (.InvalidNumeric name slice)
    else if digitsToNat s ≤ i64Max then .ok (.Numeric (digitsToNat s))
    else .error (.InvalidNumeric name slice)
  | .Decimal scale =>
    let s := rustTrim slice
    if s = [] then .ok (.Decimal 0 scale)
    else if ¬ (s.all isAsciiDigit) then .error (.InvalidNumeric name slice)
    else if digitsToNat s ≤ i64Max then .ok (.Decimal (digitsToNat s) scale)
    else .error (.InvalidNumeric name slice)

/-- `HashMap::insert`: replace the value at an existing key, else add the
binding.  The map is modelled as an association list with distinct keys. -/
def mapInsert : List (String × Value) → String → Value → List (String × Value)
  | [], k, v => [(k, v)]
  | p :: m, k, v => if p.1 == k then (k, v) :: m else p :: mapInsert m k v

/-- Outcome of running `parse_line`: a Rust panic, an `Err`, or an `Ok` map. -/
inductive Outcome where
  | panicked
  | err (e : FixedWidthError)
  | ok (m : List (String × Value))
deriving DecidableEq, Repr

/-- Loop body of `parse_line` (source lines 135-190): per field, bounds check
against the byte length, byte-range slicing, per-kind coercion, insertion. -/
def parse_line_go (line : List Char) (len : Nat) :
    List FieldSpec → List (String × Value) → Outcome
  | [], m => .ok m
  | f :: rest, m =>
    if len < f.pos.endPos then .err (.LineTooShort len f.pos.endPos)
    else
      match byteSlice line (f.pos.as_range).1 (f.pos.as_range).2 with
      | none => .panicked
      | some slice =>
        match coerceValue f.kind f.name slice with
        | .error e => .err e
        | .ok v => parse_line_go line len rest (mapInsert m f.name v)

/-- Source `parse_line` (lines 123-193): strip trailing CR/LF, then process the
fields in order over the trimmed line and its byte length. -/
def parse_line (line : List Char) (fields : List FieldSpec) : Outcome :=
  parse_line_go (trimEndCrlf line) (utf8Len (trimEndCrlf line)) fields []

/-- Source `Value::as_f64` (lines 211-219).  The `f64` arithmetic
`raw as f64 / 10_i64.pow(scale) as f64` is modelled as exact rational
arithmetic. -/
def asF64 : Value → Option ℚ
  | .Decimal raw scale => some ((raw : ℚ) / 10 ^ scale)
  | _ => none

/-- Source `Value::as_i64` (lines 222-227). -/
def asI64 : Value → Option Int
  | .Numeric n => some n
  | _ => none

/-- Source `Value::as_str` (lines 230-235). -/
def asStr : Value → Option (List Char)
  | .Alpha s => some s
  | _ => none

/-!
The derive macro (`cnab-derive/src/lib.rs`).  Its overlap validator reads only
a field's identifier and 1-based positions (`ParsedField.ident`, `pos_start`,
`pos_end`); the Rust type and CNAB kind play no role in the check, so `PField`
keeps just those three components.
-/

/-- Per-field data of `cnab-derive`'s `ParsedField` used by the overlap check. -/
structure PField where
  name : String
  pos_start : Nat
  pos_end : Nat
deriving DecidableEq, Repr

/-- Diagnostic carried by the overlap error (the data interpolated into the
`"Conflito de Posição detectado!"` message, source lines 148-156): both names,
both ranges, and the overlapping sub-range. -/
structure OverlapError where
  name1 : String
  start1 : Nat
  end1 : Nat
  name2 : String
  start2 : Nat
  end2 : Nat
  overlapStart : Nat
  overlapEnd : Nat
deriving DecidableEq, Repr

/-- Inner loop of the overlap check (source lines 141-160): compare `f1`
against each subsequent field, reporting the first overlap found. -/
def findOverlapIn (f1 : PField) : List PField → Option OverlapError
  | [] => none
  | f2 :: rest =>
    let os := max f1.pos_start f2.pos_start
    let oe := min f1.pos_end f2.pos_end
    if os ≤ oe then
      some ⟨f1.name, f1.pos_start, f1.pos_end, f2.name, f2.pos_start, f2.pos_end, os, oe⟩
    else findOverlapIn f1 rest

/-- Outer loop of the overlap check (source lines 140-161): for each field in
order, scan the subsequent fields; `none` means the schema is accepted. -/
def checkOverlap : List PField → Option OverlapError
  | [] => none
  | f :: rest =>
    match findOverlapIn f rest with
    | some e => some e
    | none => checkOverlap rest

/-- Overlap condition the validator tests for a pair of fields (the spec's
`max(f1.start, f2.start) <= min(f1.end, f2.end)`). -/
def overlapsAt (f g : PField) : Prop :=
  max f.pos_start g.pos_start ≤ min f.pos_end g.pos_end

instance (f g : PField) : Decidable (overlapsAt f g) := by
  unfold overlapsAt; infer_instance

/-!
The derive-generated typed binder (source lines 190-240): per declared field,
in declaration order, index the parsed map (`parsed[name]`, which panics on an
absent key) and coerce through the matching `Value` accessor.
-/

/-- Declared shape of one target field.  For a Numeric target the declared
Rust type is reduced to its bit width and signedness, which is all the `as`
cast depends on. -/
inductive BindKind where
  | alphaT
  | numericT (bits : Nat) (signed : Bool)
  | decimalT
deriving DecidableEq, Repr

/-- Value stored into a bound struct field: an owned string, a narrowed
integer, or the scaled decimal (an `f64`, modelled as an exact rational). -/
inductive BoundValue where
  | bstr (s : List Char)
  | bint (n : Int)
  | bfloat (q : ℚ)
deriving DecidableEq, Repr

/-- Rust `as` cast of an `i64` into an integer type of `bits` bits: truncating
two's-complement wrap, never an error. -/
def castTrunc (bits : Nat) (signed : Bool) (n : Int) : Int :=
  let m := n % (2 ^ bits : Int)
  if signed = true ∧ (2 ^ (bits - 1) : Int) ≤ m then m - 2 ^ bits else m

/-- Result of evaluating one generated field initializer. -/
inductive BindStep where
  | panicked
  | error (e : FixedWidthError)
  | okv (v : BoundValue)
deriving DecidableEq, Repr

/-- One generated field initializer (source lines 190-222): `parsed[#name]`
(panics when the key is absent), then `as_str`/`as_i64`/`as_f64` with
`ok_or(...)?`; the Numeric arm ends in `as #ty`. -/
def bindField (m : List (String × Value)) (t : String × BindKind) : BindStep :=
  match List.lookup t.1 m with
  | none => .panicked
  | some v =>
    match t.2 with
    | .alphaT =>
      match asStr v with
      | none => .error .InvalidUtf8
      | some s => .okv (.bstr s)
    | .numericT bits signed =>
      match asI64 v with
      | none => .error (.InvalidNumeric t.1 [])
      | some n => .okv (.bint (castTrunc bits signed n))
    | .decimalT =>
      match asF64 v with
      | none => .error (.InvalidNumeric t.1 [])
      | some q => .okv (.bfloat q)

/-- Outcome of the generated `parse` body after `parse_line` succeeded: the
struct-literal evaluation over all declared fields. -/
inductive BindOutcome where
  | panicked
  | error (e : FixedWidthError)
  | ok (vs : List BoundValue)
deriving DecidableEq, Repr

/-- The generated struct literal (source lines 225-239): field initializers
run in declaration order and the first `?`-propagated error (or panic) stops
the construction. -/
def bindRecord (targets : List (String × BindKind)) (m : List (String × Value)) :
    BindOutcome :=
  match targets with
  | [] => .ok []
  | t :: rest =>
    match bindField m t with
    | .panicked => .panicked
    | .error e => .error e
    | .okv v =>
      match bindRecord rest m with
      | .panicked => .panicked
      | .error e => .error e
      | .ok vs => .ok (v :: vs)

/-!
Helper lemmas about trimming, shared by the claims on CR/LF stripping and on
the per-kind whitespace rules.
-/

theorem trimEndBy_decomp (p : Char → Bool) (cs : List Char) :
    ∃ suffix, cs = trimEndBy p cs ++ suffix ∧ suffix.all p = true := by
  refine ⟨(cs.reverse.takeWhile p).reverse, ?_, ?_⟩
  · conv_lhs => rw [← cs.reverse_reverse, ← List.takeWhile_append_dropWhile p cs.reverse]
    rw [List.reverse_append]
    rfl
  · rw [List.all_eq_true]
    intro c hc
    exact List.mem_takeWhile_imp (List.mem_reverse.mp hc)

theorem head_dropWhile_not (p : Char → Bool) :
    ∀ (l : List Char) (c : Char), (l.dropWhile p).head? = some c → p c = false := by
  intro l
  induction l with
  | nil => intro c h; simp [List.dropWhile] at h
  | cons x xs ih =>
    intro c h
    by_cases hp : p x
    · rw [List.dropWhile_cons_of_pos hp] at h
      exact ih c h
    · rw [List.dropWhile_cons_of_neg hp] at h
      simp at h
      subst h
      simpa using hp

theorem trimEndBy_getLast_not (p : Char → Bool) (cs : List Char) (c : Char)
    (h : (trimEndBy p cs).getLast? = some c) : p c = false := by
  unfold trimEndBy at h
  rw [List.getLast?_reverse] at h
  exact head_dropWhile_not p cs.reverse c h

/-!
Helper lemmas about the overlap validator.
-/

theorem findOverlapIn_eq_none (f : PField) (l : List PField) :
    findOverlapIn f l = none ↔ ∀ g ∈ l, ¬ overlapsAt f g := by
  induction l with
  | nil => simp [findOverlapIn]
  | cons g rest ih =>
    simp only [findOverlapIn]
    by_cases h : max f.pos_start g.pos_start ≤ min f.pos_end g.pos_end
    · simp only [if_pos h]
      constructor
      · intro hsome; exact absurd hsome (by simp)
      · intro hall
        exact absurd (show overlapsAt f g from h) (hall g (List.mem_cons_self g rest))
    · simp only [if_neg h]
      rw [ih]
      constructor
      · intro hall g' hg'
        rcases List.mem_cons.mp hg' with rfl | hg'
        · exact fun hov => h hov
        · exact hall g' hg'
      · intro hall g' hg'
        exact hall g' (List.mem_cons_of_mem g hg')

theorem findOverlapIn_eq_some (f : PField) :
    ∀ (l : List PField) (e : OverlapError), findOverlapIn f l = some e →
      e.name1 = f.name ∧ e.start1 = f.pos_start ∧ e.end1 = f.pos_end ∧
      e.overlapStart = max e.start1 e.start2 ∧ e.overlapEnd = min e.end1 e.end2 ∧
      e.overlapStart ≤ e.overlapEnd ∧
      ∃ (j : ℕ) (hj : j < l.length), l.get ⟨j, hj⟩ = ⟨e.name2, e.start2, e.end2⟩ ∧
        ∀ j' (hj' : j' < j), ¬ overlapsAt f (l.get ⟨j', Nat.lt_trans hj' hj⟩) := by
  intro l
  induction l with
  | nil => intro e h; simp [findOverlapIn] at h
  | cons g rest ih =>
    intro e h
    simp only [findOverlapIn] at h
    by_cases hc : max f.pos_start g.pos_start ≤ min f.pos_end g.pos_end
    · rw [if_pos hc] at h
      injection h with h
      subst h
      refine ⟨rfl, rfl, rfl, rfl, rfl, hc, 0, by simp, rfl, ?_⟩
      intro j' hj'
      exact absurd hj' (Nat.not_lt_zero j')
    · rw [if_neg hc] at h
      obtain ⟨h1, h2, h3, h4, h5, h6, j, hj, hget, hfirst⟩ := ih e h
      refine ⟨h1, h2, h3, h4, h5, h6, j + 1, by simpa using Nat.succ_lt_succ hj,
        by simpa using hget, ?_⟩
      intro j' hj'
      cases j' with
      | zero => exact fun hov => hc hov
      | succ k =>
        have hk : k < j := Nat.lt_of_succ_lt_succ hj'
        have := hfirst k hk
        simpa using this

theorem checkOverlap_eq_none (fs : List PField) :
    checkOverlap fs = none ↔
      ∀ i j (hi : i < fs.length) (hj : j < fs.length), i < j →
        ¬ overlapsAt (fs.get ⟨i, hi⟩) (fs.get ⟨j, hj⟩) := by
  induction fs with
  | nil => simp [checkOverlap]
  | cons f rest ih =>
    constructor
    · intro h
      have hfo : findOverlapIn f rest = none := by
        cases hfo : findOverlapIn f rest with
        | none => rfl
        | some e => simp only [checkOverlap, hfo] at h; exact h
      have hrest : checkOverlap rest = none := by
        simpa only [checkOverlap, hfo] using h
      have hnone := (findOverlapIn_eq_none f rest).mp hfo
      have hres := ih.mp hrest
      intro i j hi hj hij
      cases i with
      | zero =>
        cases j with
        | zero => exact absurd hij (lt_irrefl 0)
        | succ k =>
          have hk : k < rest.length := by simpa using hj
          have := hnone _ (List.get_mem rest k hk)
          simpa using this
      | succ i' =>
        cases j with
        | zero => exact absurd hij (by omega)
        | succ j' =>
          have := hres i' j' (by simpa using hi) (by simpa using hj) (by omega)
          simpa using this
    · intro hall
      have hfo : findOverlapIn f rest = none := by
        rw [findOverlapIn_eq_none]
        intro g hg
        obtain ⟨⟨k, hk⟩, hgk⟩ := List.mem_iff_get.mp hg
        rw [← hgk]
        have := hall 0 (k + 1) (by simp) (by simpa using Nat.succ_lt_succ hk) (by omega)
        simpa using this
      simp only [checkOverlap, hfo]
      rw [ih]
      intro i j hi hj hij
      have := hall (i + 1) (j + 1) (by simpa using Nat.succ_lt_succ hi)
        (by simpa using Nat.succ_lt_succ hj) (by omega)
      simpa using this

theorem checkOverlap_eq_some :
    ∀ (fs : List PField) (e : OverlapError), checkOverlap fs = some e →
      e.overlapStart = max e.start1 e.start2 ∧ e.overlapEnd = min e.end1 e.end2 ∧
      e.overlapStart ≤ e.overlapEnd ∧
      ∃ (i : ℕ) (j : ℕ) (hi : i < fs.length) (hj : j < fs.length), i < j ∧
        fs.get ⟨i, hi⟩ = ⟨e.name1, e.start1, e.end1⟩ ∧
        fs.get ⟨j, hj⟩ = ⟨e.name2, e.start2, e.end2⟩ ∧
        ∀ i' j' (hi' : i' < fs.length) (hj' : j' < fs.length), i' < j' →
          (i' < i ∨ (i' = i ∧ j' < j)) →
          ¬ overlapsAt (fs.get ⟨i', hi'⟩) (fs.get ⟨j', hj'⟩) := by
  intro fs
  induction fs with
  | nil => intro e h; simp [checkOverlap] at h
  | cons f rest ih =>
    intro e h
    simp only [checkOverlap] at h
    cases hfo : findOverlapIn f rest with
    | some e' =>
      rw [hfo] at h
      simp only [] at h
      injection h with h
      subst h
      obtain ⟨h1, h2, h3, h4, h5, h6, j, hj, hget, hfirst⟩ :=
        findOverlapIn_eq_some f rest e' hfo
      refine ⟨h4, h5, h6, 0, j + 1, by simp, by simpa using Nat.succ_lt_succ hj,
        by omega, ?_, by simpa using hget, ?_⟩
      · show f = ⟨e'.name1, e'.start1, e'.end1⟩
        rw [h1, h2, h3]
      · intro i' j' hi' hj' hij' hlex
        rcases hlex with hlt | ⟨heq, hjlt⟩
        · exact absurd hlt (Nat.not_lt_zero i')
        · subst heq
          cases j' with
          | zero => exact absurd hij' (lt_irrefl 0)
          | succ k =>
            have hk : k < j := by omega
            have := hfirst k hk
            simpa using this
    | none =>
      rw [hfo] at h
      simp only [] at h
      obtain ⟨h1, h2, h3, i, j, hi, hj, hij, hgi, hgj, hfirst⟩ := ih e h
      have hnone := (findOverlapIn_eq_none f rest).mp hfo
      refine ⟨h1, h2, h3, i + 1, j + 1, by simpa using Nat.succ_lt_succ hi,
        by simpa using Nat.succ_lt_succ hj, by omega,
        by simpa using hgi, by simpa using hgj, ?_⟩
      intro i' j' hi' hj' hij' hlex
      cases i' with
      | zero =>
        cases j' with
        | zero => exact absurd hij' (lt_irrefl 0)
        | succ k =>
          have hk : k < rest.length := by simp at hj'; omega
          have := hnone _ (List.get_mem rest k hk)
          simpa using this
      | succ k =>
        cases j' with
        | zero => exact absurd hij' (by omega)
        | succ k2 =>
          have hk : k < rest.length := by simp at hi'; omega
          have hk2 : k2 < rest.length := by simp at hj'; omega
          have hlex' : k < i ∨ (k = i ∧ k2 < j) := by
            rcases hlex with hl | ⟨hl, hl2⟩
            · left; omega
            · right; exact ⟨by omega, by omega⟩
          have := hfirst k k2 hk hk2 (by omega) hlex'
          simpa using this

/-!
Helper lemmas about `parse_line`.
-/

theorem coerceValue_ne_LineTooShort (kind : FieldKind) (name : String)
    (slice : List Char) (a r : Nat) :
    coerceValue kind name slice ≠ .error (.LineTooShort a r) := by
  cases kind
  · simp [coerceValue]
  · simp only [coerceValue]; split_ifs <;> simp
  · simp only [coerceValue]; split_ifs <;> simp

theorem parse_line_go_line_too_short (l : List Char) (len : Nat) :
    ∀ (fields : List FieldSpec) (m : List (String × Value)) (a r : Nat),
      parse_line_go l len fields m = .err (.LineTooShort a r) →
      a = len ∧ ∃ (i : ℕ) (hi : i < fields.length),
        (fields.get ⟨i, hi⟩).pos.endPos = r ∧ len < r ∧
        ∀ j (hj : j < i), (fields.get ⟨j, Nat.lt_trans hj hi⟩).pos.endPos ≤ len := by
  intro fields
  induction fields with
  | nil => intro m a r h; simp [parse_line_go] at h
  | cons f rest ih =>
    intro m a r h
    simp only [parse_line_go] at h
    by_cases hb : len < f.pos.endPos
    · rw [if_pos hb] at h
      injection h with h
      injection h with h1 h2
      subst h1; subst h2
      refine ⟨rfl, 0, by simp, rfl, hb, ?_⟩
      intro j hj
      exact absurd hj (Nat.not_lt_zero j)
    · rw [if_neg hb] at h
      cases hbs : byteSlice l (f.pos.as_range).1 (f.pos.as_range).2 with
      | none => rw [hbs] at h; simp at h
      | some slice =>
        rw [hbs] at h
        simp only [] at h
        cases hc : coerceValue f.kind f.name slice with
        | error e =>
          rw [hc] at h
          simp only [] at h
          injection h with h
          subst h
          exact absurd hc (coerceValue_ne_LineTooShort f.kind f.name slice a r)
        | ok v =>
          rw [hc] at h
          simp only [] at h
          obtain ⟨ha, i, hi, hr, hlt, hfirst⟩ := ih (mapInsert m f.name v) a r h
          refine ⟨ha, i + 1, by simpa using Nat.succ_lt_succ hi, by simpa using hr, hlt, ?_⟩
          intro j hj
          cases j with
          | zero => simpa using Nat.le_of_not_lt hb
          | succ k =>
            have := hfirst k (Nat.lt_of_succ_lt_succ hj)
            simpa using this

theorem parse_line_go_stops (l : List Char) (len : Nat) (f : FieldSpec)
    (hf : len < f.pos.endPos) :
    ∀ (pre rest rest' : List FieldSpec) (m : List (String × Value)),
      parse_line_go l len (pre ++ f :: rest) m =
        parse_line_go l len (pre ++ f :: rest') m := by
  intro pre
  induction pre with
  | nil =>
    intro rest rest' m
    simp [parse_line_go, if_pos hf]
  | cons g pre ih =>
    intro rest rest' m
    simp only [List.cons_append, parse_line_go]
    by_cases hb : len < g.pos.endPos
    · rw [if_pos hb, if_pos hb]
    · rw [if_neg hb, if_neg hb]
      cases hbs : byteSlice l (g.pos.as_range).1 (g.pos.as_range).2 with
      | none => rfl
      | some slice =>
        simp only []
        cases hc : coerceValue g.kind g.name slice with
        | error e => rfl
        | ok v => exact ih rest rest' (mapInsert m g.name v)

/-!
Helper lemma about the generated binder: a prefix of successfully binding
fields only prepends values and never changes how the remainder is handled.
-/

theorem bindRecord_append_of_ok (m : List (String × Value)) :
    ∀ (pre : List (String × BindKind)),
      (∀ t ∈ pre, ∃ v, bindField m t = .okv v) →
      ∃ vs, ∀ l, bindRecord (pre ++ l) m =
        match bindRecord l m with
        | .panicked => .panicked
        | .error e => .error e
        | .ok xs => .ok (vs ++ xs) := by
  intro pre
  induction pre with
  | nil =>
    intro _
    refine ⟨[], ?_⟩
    intro l
    cases h : bindRecord l m <;> simp [h]
  | cons t pre ih =>
    intro hall
    obtain ⟨v, hv⟩ := hall t (List.mem_cons_self t pre)
    obtain ⟨vs, hvs⟩ := ih (fun t' ht' => hall t' (List.mem_cons_of_mem t ht'))
    refine ⟨v :: vs, ?_⟩
    intro l
    simp only [List.cons_append, bindRecord, hv, List.append_eq]
    rw [hvs l]
    cases h : bindRecord l m <;> simp

/-!
Helper lemmas about the association-list model of the parsed map.
-/

theorem list_find?_append {α : Type} (p : α → Bool) :
    ∀ (l₁ l₂ : List α), (l₁ ++ l₂).find? p =
      match l₁.find? p with
      | some x => some x
      | none => l₂.find? p := by
  intro l₁ l₂
  induction l₁ with
  | nil => simp [List.find?]
  | cons x l ih =>
    by_cases hx : p x
    · rw [List.cons_append, List.find?_cons_of_pos _ hx, List.find?_cons_of_pos _ hx]
    · rw [List.cons_append, List.find?_cons_of_neg _ hx, List.find?_cons_of_neg _ hx, ih]

theorem lookup_mapInsert (k : String) (v : Value) :
    ∀ (m : List (String × Value)) (a : String),
      List.lookup a (mapInsert m k v) = if a == k then some v else List.lookup a m := by
  intro m
  induction m with
  | nil =>
    intro a
    cases h : a == k <;> simp [mapInsert, List.lookup, h]
  | cons p m ih =>
    intro a
    by_cases hp : (p.1 == k) = true
    · have hpk : p.1 = k := beq_iff_eq.mp hp
      simp only [mapInsert, if_pos hp]
      cases h : a == k
      · have hap : (a == p.1) = false := by rw [hpk]; exact h
        simp [List.lookup, h, hap]
      · simp [List.lookup, h]
    · simp only [Bool.not_eq_true] at hp
      rw [show mapInsert (p :: m) k v = p :: mapInsert m k v from by simp [mapInsert, hp]]
      cases h : a == p.1
      · simp [List.lookup, h, ih]
      · have hak : (a == k) = false := by
          rw [beq_iff_eq.mp h]
          exact hp
        simp [List.lookup, h, hak]

theorem keys_mapInsert (k : String) (v : Value) :
    ∀ (m : List (String × Value)) (a : String),
      a ∈ (mapInsert m k v).map Prod.fst ↔ a = k ∨ a ∈ m.map Prod.fst := by
  intro m
  induction m with
  | nil => intro a; simp [mapInsert]
  | cons p m ih =>
    intro a
    by_cases hp : p.1 == k
    · have hpk : p.1 = k := by simpa using hp
      simp [mapInsert, hp, hpk]
    · simp [mapInsert, hp, ih]
      tauto

theorem nodup_keys_mapInsert (k : String) (v : Value) :
    ∀ (m : List (String × Value)), (m.map Prod.fst).Nodup →
      ((mapInsert m k v).map Prod.fst).Nodup := by
  intro m
  induction m with
  | nil => intro _; simp [mapInsert]
  | cons p m ih =>
    intro hnd
    simp only [List.map_cons, List.nodup_cons] at hnd
    by_cases hp : p.1 == k
    · have hpk : p.1 = k := by simpa using hp
      simp only [mapInsert, if_pos hp, List.map_cons, List.nodup_cons]
      exact ⟨hpk ▸ hnd.1, hnd.2⟩
    · have hpk : ¬ p.1 = k := by simpa using hp
      simp only [mapInsert, if_neg hp, List.map_cons, List.nodup_cons]
      refine ⟨?_, ih hnd.2⟩
      intro hmem
      rcases (keys_mapInsert k v m p.1).mp hmem with h | h
      · exact hpk h
      · exact hnd.1 h

theorem parse_line_go_ok (l : List Char) (len : Nat) :
    ∀ (fields : List FieldSpec) (m : List (String × Value)),
      (∀ f ∈ fields, f.pos.endPos ≤ len) →
      (∀ f ∈ fields, ∃ s v,
         byteSlice l (f.pos.as_range).1 (f.pos.as_range).2 = some s ∧
         coerceValue f.kind f.name s = .ok v) →
      ∃ m', parse_line_go l len fields m = .ok m' ∧
        (∀ a, fields.reverse.find? (fun g => g.name == a) = none →
           List.lookup a m' = List.lookup a m) ∧
        (∀ a g, fields.reverse.find? (fun g => g.name == a) = some g →
           ∃ s v, byteSlice l (g.pos.as_range).1 (g.pos.as_range).2 = some s ∧
             coerceValue g.kind g.name s = .ok v ∧ List.lookup a m' = some v) ∧
        (∀ a, a ∈ m'.map Prod.fst ↔ a ∈ m.map Prod.fst ∨ ∃ f ∈ fields, f.name = a) ∧
        ((m.map Prod.fst).Nodup → (m'.map Prod.fst).Nodup) := by
  intro fields
  induction fields with
  | nil =>
    intro m _ _
    refine ⟨m, rfl, fun a _ => rfl, fun a g h => by simp at h, fun a => by simp, id⟩
  | cons f rest ih =>
    intro m hb hs
    obtain ⟨s, v, hslice, hco⟩ := hs f (List.mem_cons_self f rest)
    have hbf : ¬ len < f.pos.endPos := Nat.not_lt.mpr (hb f (List.mem_cons_self f rest))
    have step : parse_line_go l len (f :: rest) m =
        parse_line_go l len rest (mapInsert m f.name v) := by
      simp only [parse_line_go]
      rw [if_neg hbf, hslice]
      simp only []
      rw [hco]
    obtain ⟨m', hok, hnone, hsome, hkeys, hnd⟩ := ih (mapInsert m f.name v)
      (fun g hg => hb g (List.mem_cons_of_mem f hg))
      (fun g hg => hs g (List.mem_cons_of_mem f hg))
    refine ⟨m', step.trans hok, ?_, ?_, ?_, fun h => hnd (nodup_keys_mapInsert f.name v m h)⟩
    · intro a hfind
      rw [List.reverse_cons, list_find?_append] at hfind
      cases hr : rest.reverse.find? (fun g => g.name == a) with
      | some g => rw [hr] at hfind; simp at hfind
      | none =>
        rw [hr] at hfind
        simp only [] at hfind
        have hfa : ¬ (f.name == a) = true := by
          have := List.find?_eq_none.mp hfind f (by simp)
          simpa using this
        simp only [beq_iff_eq] at hfa
        rw [hnone a hr, lookup_mapInsert,
          if_neg (fun hc => hfa (beq_iff_eq.mp hc).symm)]
    · intro a g hfind
      rw [List.reverse_cons, list_find?_append] at hfind
      cases hr : rest.reverse.find? (fun g => g.name == a) with
      | some g' =>
        rw [hr] at hfind
        simp only [Option.some.injEq] at hfind
        subst hfind
        exact hsome a g' hr
      | none =>
        rw [hr] at hfind
        simp only [] at hfind
        by_cases hc : (f.name == a) = true
        · rw [@List.find?_cons_of_pos _ (fun g : FieldSpec => g.name == a) f [] hc] at hfind
          simp only [Option.some.injEq] at hfind
          subst hfind
          refine ⟨s, v, hslice, hco, ?_⟩
          have ha : (a == f.name) = true := beq_iff_eq.mpr (beq_iff_eq.mp hc).symm
          rw [hnone a hr, lookup_mapInsert, if_pos ha]
        · rw [@List.find?_cons_of_neg _ (fun g : FieldSpec => g.name == a) f [] hc] at hfind
          simp at hfind
    · intro a
      rw [hkeys a, keys_mapInsert]
      constructor
      · rintro ((rfl | h) | ⟨g, hg, rfl⟩)
        · right; exact ⟨f, List.mem_cons_self f rest, rfl⟩
        · left; exact h
        · right; exact ⟨g, List.mem_cons_of_mem f hg, rfl⟩
      · rintro (h | ⟨g, hg, rfl⟩)
        · left; right; exact h
        · rcases List.mem_cons.mp hg with rfl | hg'
          · left; left; rfl
          · right; exact ⟨g, hg', rfl⟩

/-!
Claim theorems.
-/

/-- C1: the claim says `parse_line` never panics and slices on character
boundaries, so that the 1-character line `"é"` with a field spanning character
positions 1..1 parses.  The code slices by byte index: on this input the
bounds check passes (`len` is the byte length 2) and `&line["é".as_range]`
hits byte offset 1, the middle of the 2-byte character, so the program
panics instead of producing any `Result`. -/
theorem c1_byte_slicing_panics_on_multibyte :
    ("é".toList).length = 1 ∧
    utf8Len ("é".toList) = 2 ∧
    parse_line ("é".toList) [⟨"f", ⟨1, 1⟩, .Alpha⟩] = .panicked := by
  decide

/-- C6: `as_f64` yields `raw / 10^scale` exactly on `Decimal` and nothing on
the other kinds; `as_i64` succeeds only on `Numeric`; `as_str` only on
`Alpha`; and a Decimal field of scale 2 over the digits "001234" parses to
`raw = 1234`, whose float conversion (modelled as exact rational arithmetic)
equals 12.34. -/
theorem c6_accessors_partial_and_scaled :
    ∀ (raw : Int) (scale : Nat) (s : List Char) (n : Int),
      asF64 (.Decimal raw scale) = some ((raw : ℚ) / 10 ^ scale) ∧
      asF64 (.Alpha s) = none ∧
      asF64 (.Numeric n) = none ∧
      asI64 (.Numeric n) = some n ∧
      asI64 (.Alpha s) = none ∧
      asI64 (.Decimal raw scale) = none ∧
      asStr (.Alpha s) = some s ∧
      asStr (.Numeric n) = none ∧
      asStr (.Decimal raw scale) = none ∧
      coerceValue (.Decimal 2) "valor" ("001234".toList) = .ok (.Decimal 1234 2) ∧
      asF64 (.Decimal 1234 2) = some (12.34 : ℚ) := by
  intro raw scale s n
  refine ⟨rfl, rfl, rfl, rfl, rfl, rfl, rfl, rfl, rfl, by decide, ?_⟩
  unfold asF64
  norm_num

/-- C9: the validator's verdict on a two-field schema does not depend on the
order of the two fields: `[A, B]` is accepted exactly when `[B, A]` is. -/
theorem c9_validator_order_independent (A B : PField) :
    checkOverlap [A, B] = none ↔ checkOverlap [B, A] = none := by
  simp only [checkOverlap, findOverlapIn]
  rw [max_comm B.pos_start A.pos_start, min_comm B.pos_end A.pos_end]
  by_cases h : max A.pos_start B.pos_start ≤ min A.pos_end B.pos_end
  · simp [h]
  · simp [h]

/-- C5: an Alpha field coerces to `Alpha` of the slice with exactly its
trailing-whitespace run removed (so every leading character, whitespace
included, is preserved), and the slice "BANCO TESTE" plus padding spaces
yields `Alpha("BANCO TESTE")`. -/
theorem c5_alpha_trims_trailing_only (name : String) (slice : List Char) :
    coerceValue .Alpha name slice = .ok (.Alpha (rustTrimEnd slice)) ∧
    (∃ suffix, slice = rustTrimEnd slice ++ suffix ∧
       suffix.all isRustWhitespace = true) ∧
    (∀ c, (rustTrimEnd slice).getLast? = some c → isRustWhitespace c = false) ∧
    coerceValue .Alpha name ("BANCO TESTE   ".toList) = .ok (.Alpha ("BANCO TESTE".toList)) := by
  refine ⟨rfl, trimEndBy_decomp _ _, ?_, ?_⟩
  · intro c hc
    exact trimEndBy_getLast_not _ _ _ hc
  · exact congrArg (fun l => Except.ok (Value.Alpha l))
      (by decide : rustTrimEnd ("BANCO TESTE   ".toList) = "BANCO TESTE".toList)

/-- Witness for C5 at a concrete slice: the last character left by the Alpha
trim of "BANCO TESTE " is not whitespace. -/
theorem c5_witness : isRustWhitespace 'E' = false :=
  (c5_alpha_trims_trailing_only "nome" ("BANCO TESTE ".toList)).2.2.1 'E' (by decide)

/-- C3: the validator flags a pair of distinct fields exactly when
`max(starts) <= min(ends)`; touching ranges such as 1..3 and 4..6 are
accepted together; equal or nested ranges always reject; and a rejection
reports the first overlapping pair in scan order, with a diagnostic carrying
both names, both ranges, and the overlapping sub-range. -/
theorem c3_validator_pairwise_overlap (fs : List PField) :
    (checkOverlap fs = none ↔
       ∀ i j (hi : i < fs.length) (hj : j < fs.length), i < j →
         ¬ (max (fs.get ⟨i, hi⟩).pos_start (fs.get ⟨j, hj⟩).pos_start ≤
            min (fs.get ⟨i, hi⟩).pos_end (fs.get ⟨j, hj⟩).pos_end)) ∧
    (∀ n1 n2, checkOverlap [⟨n1, 1, 3⟩, ⟨n2, 4, 6⟩] = none) ∧
    (∀ n1 n2 s1 e1 s2 e2,
       ((s1 ≤ s2 ∧ s2 ≤ e2 ∧ e2 ≤ e1) ∨ (s2 ≤ s1 ∧ s1 ≤ e1 ∧ e1 ≤ e2)) →
       checkOverlap [⟨n1, s1, e1⟩, ⟨n2, s2, e2⟩] ≠ none) ∧
    (∀ e, checkOverlap fs = some e →
       e.overlapStart = max e.start1 e.start2 ∧ e.overlapEnd = min e.end1 e.end2 ∧
       e.overlapStart ≤ e.overlapEnd ∧
       ∃ (i : ℕ) (j : ℕ) (hi : i < fs.length) (hj : j < fs.length), i < j ∧
         fs.get ⟨i, hi⟩ = ⟨e.name1, e.start1, e.end1⟩ ∧
         fs.get ⟨j, hj⟩ = ⟨e.name2, e.start2, e.end2⟩ ∧
         ∀ i' j' (hi' : i' < fs.length) (hj' : j' < fs.length), i' < j' →
           (i' < i ∨ (i' = i ∧ j' < j)) →
           ¬ (max (fs.get ⟨i', hi'⟩).pos_start (fs.get ⟨j', hj'⟩).pos_start ≤
              min (fs.get ⟨i', hi'⟩).pos_end (fs.get ⟨j', hj'⟩).pos_end)) := by
  refine ⟨checkOverlap_eq_none fs, ?_, ?_, fun e he => checkOverlap_eq_some fs e he⟩
  · intro n1 n2
    simp [checkOverlap, findOverlapIn]
  · intro n1 n2 s1 e1 s2 e2 hn
    rcases hn with ⟨h1, h2, h3⟩ | ⟨h1, h2, h3⟩
    · simp [checkOverlap, findOverlapIn, max_eq_right h1, min_eq_right h3, h2]
    · simp [checkOverlap, findOverlapIn, max_eq_left h1, min_eq_left h3, h2]

/-- Witness for C3 at concrete schemas: a nested pair (1..5 containing 3..4)
is rejected, and the reported diagnostic's overlap range is 3..4. -/
theorem c3_witness :
    checkOverlap [⟨"a", 1, 5⟩, ⟨"b", 3, 4⟩] ≠ none ∧
    ((3 : Nat) = max 1 3 ∧ (4 : Nat) = min 5 4) := by
  constructor
  · exact (c3_validator_pairwise_overlap []).2.2.1 "a" "b" 1 5 3 4
      (Or.inl ⟨by decide, by decide, by decide⟩)
  · have h := ((c3_validator_pairwise_overlap [⟨"a", 1, 5⟩, ⟨"b", 3, 4⟩]).2.2.2
      ⟨"a", 1, 5, "b", 3, 4, 3, 4⟩ (by decide))
    exact ⟨h.1, h.2.1⟩

/-- C4: `parse_line` strips trailing CR/LF (and only a trailing run of those
characters, leaving everything before it intact), bounds-checks each field in
schema order against `field.pos.end`, and a `LineTooShort{actual, required}`
failure always carries the (byte) length of the trimmed line and the end
position of the earliest field in schema order exceeding it — all fields
before that one fit within the line — while fields after the failing one are
never processed (the result is identical for any tail after it). -/
theorem c4_crlf_strip_and_line_too_short (line : List Char) (fields : List FieldSpec) :
    (∃ suffix, line = trimEndCrlf line ++ suffix ∧
       (∀ c ∈ suffix, c = '\r' ∨ c = '\n') ∧
       (∀ c, (trimEndCrlf line).getLast? = some c → ¬ (c = '\r' ∨ c = '\n'))) ∧
    (∀ a r, parse_line line fields = .err (.LineTooShort a r) →
       a = utf8Len (trimEndCrlf line) ∧
       ∃ (i : ℕ) (hi : i < fields.length),
         (fields.get ⟨i, hi⟩).pos.endPos = r ∧ a < r ∧
         ∀ j (hj : j < i), (fields.get ⟨j, Nat.lt_trans hj hi⟩).pos.endPos ≤ a) ∧
    (∀ (pre : List FieldSpec) (f : FieldSpec) (rest rest' : List FieldSpec),
       utf8Len (trimEndCrlf line) < f.pos.endPos →
       parse_line line (pre ++ f :: rest) = parse_line line (pre ++ f :: rest')) := by
  refine ⟨?_, ?_, ?_⟩
  · obtain ⟨suffix, hdec, hall⟩ :=
      trimEndBy_decomp (fun c => c == '\r' || c == '\n') line
    refine ⟨suffix, hdec, ?_, ?_⟩
    · intro c hc
      have := (List.all_eq_true.mp hall) c hc
      simpa using this
    · intro c hc
      have := trimEndBy_getLast_not (fun c => c == '\r' || c == '\n') line c hc
      simpa using this
  · intro a r h
    obtain ⟨ha, i, hi, hr, hlt, hfirst⟩ :=
      parse_line_go_line_too_short (trimEndCrlf line) (utf8Len (trimEndCrlf line))
        fields [] a r h
    subst ha
    exact ⟨rfl, i, hi, hr, hlt, hfirst⟩
  · intro pre f rest rest' hf
    exact parse_line_go_stops (trimEndCrlf line) (utf8Len (trimEndCrlf line))
      f hf pre rest rest' []

/-- Witness for C4 at a concrete short line: the reported actual length is the
trimmed line's length, and the tail after the first too-short field does not
influence the result. -/
theorem c4_witness :
    (3 : Nat) = utf8Len (trimEndCrlf ("abc".toList)) ∧
    parse_line ("abc".toList)
        [⟨"f1", ⟨1, 2⟩, .Alpha⟩, ⟨"f2", ⟨1, 9⟩, .Alpha⟩, ⟨"g", ⟨1, 1⟩, .Numeric⟩] =
      parse_line ("abc".toList) [⟨"f1", ⟨1, 2⟩, .Alpha⟩, ⟨"f2", ⟨1, 9⟩, .Alpha⟩] := by
  constructor
  · exact ((c4_crlf_strip_and_line_too_short ("abc".toList)
      [⟨"f1", ⟨1, 2⟩, .Alpha⟩, ⟨"f2", ⟨1, 9⟩, .Alpha⟩]).2.1 3 9 (by decide)).1
  · exact (c4_crlf_strip_and_line_too_short ("abc".toList) []).2.2
      [⟨"f1", ⟨1, 2⟩, .Alpha⟩] ⟨"f2", ⟨1, 9⟩, .Alpha⟩
      [⟨"g", ⟨1, 1⟩, .Numeric⟩] [] (by decide)

/-- C2: Numeric and Decimal fields trim whitespace from both ends of the
slice; an empty-after-trim slice coerces to zero; an all-ASCII-digit slice
whose value fits an `i64` coerces to that value (kept as `raw` alongside
`scale` for Decimal); any other slice — a non-digit character anywhere after
the trim, or a value over `i64::MAX` — fails with `InvalidNumeric` carrying
the field name and the original (untrimmed) slice. -/
theorem c2_numeric_decimal_coercion (name : String) (slice : List Char) (scale : Nat) :
    (∃ pre suf, slice = pre ++ rustTrim slice ++ suf ∧
       pre.all isRustWhitespace = true ∧ suf.all isRustWhitespace = true) ∧
    (rustTrim slice = [] →
       coerceValue .Numeric name slice = .ok (.Numeric 0) ∧
       coerceValue (.Decimal scale) name slice = .ok (.Decimal 0 scale)) ∧
    (rustTrim slice ≠ [] → (rustTrim slice).all isAsciiDigit = true →
       digitsToNat (rustTrim slice) ≤ i64Max →
       coerceValue .Numeric name slice = .ok (.Numeric (digitsToNat (rustTrim slice))) ∧
       coerceValue (.Decimal scale) name slice =
         .ok (.Decimal (digitsToNat (rustTrim slice)) scale)) ∧
    (rustTrim slice ≠ [] →
       ((rustTrim slice).all isAsciiDigit = false ∨ i64Max < digitsToNat (rustTrim slice)) →
       coerceValue .Numeric name slice = .error (.InvalidNumeric name slice) ∧
       coerceValue (.Decimal scale) name slice = .error (.InvalidNumeric name slice)) := by
  refine ⟨?_, ?_, ?_, ?_⟩
  · obtain ⟨suf, hdec, hsuf⟩ := trimEndBy_decomp isRustWhitespace (rustTrimStart slice)
    refine ⟨slice.takeWhile isRustWhitespace, suf, ?_, ?_, hsuf⟩
    · conv_lhs => rw [← List.takeWhile_append_dropWhile isRustWhitespace slice]
      rw [List.append_assoc]
      exact congrArg _ hdec
    · rw [List.all_eq_true]
      intro c hc
      exact List.mem_takeWhile_imp hc
  · intro h
    constructor <;> simp [coerceValue, h]
  · intro h hd hle
    constructor <;> simp [coerceValue, h, hd, hle]
  · intro h hbad
    rcases hbad with hd | hgt
    · constructor <;> simp [coerceValue, h, hd]
    · by_cases hd : (rustTrim slice).all isAsciiDigit = true
      · constructor <;> simp [coerceValue, h, hd, Nat.not_le_of_lt hgt]
      · constructor <;> simp [coerceValue, h, hd]

/-- Witness for C2 at concrete slices: the digit, the all-blank, and the
invalid branch each fire as the claim describes. -/
theorem c2_witness :
    coerceValue .Numeric "f" ("  12 ".toList) = .ok (.Numeric 12) ∧
    coerceValue (.Decimal 2) "f" ("  12 ".toList) = .ok (.Decimal 12 2) ∧
    coerceValue .Numeric "f" ("   ".toList) = .ok (.Numeric 0) ∧
    coerceValue .Numeric "g" (" -2".toList) = .error (.InvalidNumeric "g" (" -2".toList)) := by
  have hdig := (c2_numeric_decimal_coercion "f" ("  12 ".toList) 2).2.2.1
    (by decide) (by decide) (by decide)
  have hblank := (c2_numeric_decimal_coercion "f" ("   ".toList) 2).2.1 (by decide)
  have hbad := (c2_numeric_decimal_coercion "g" (" -2".toList) 0).2.2.2
    (by decide) (Or.inl (by decide))
  exact ⟨hdig.1.trans (by decide), hdig.2.trans (by decide), hblank.1, hbad.1⟩

/-- C10: `parse_line` enforces neither name uniqueness nor non-overlap: for
any field-spec list — validated or not — in which every spec has `start >= 1`
and slices within the trimmed line to a value satisfying its kind's coercion
rules, parsing returns `Ok`; the returned map's keys are exactly the distinct
field names of the list, and each name maps to the value produced from the
last spec in the list carrying that name (later specs overwrite earlier
ones). -/
theorem c10_parse_line_no_schema_enforcement (line : List Char)
    (fields : List FieldSpec)
    (_hstart : ∀ f ∈ fields, 1 ≤ f.pos.start)
    (h2 : ∀ f ∈ fields, f.pos.endPos ≤ utf8Len (trimEndCrlf line))
    (h3 : ∀ f ∈ fields, ∃ s v,
       byteSlice (trimEndCrlf line) (f.pos.as_range).1 (f.pos.as_range).2 = some s ∧
       coerceValue f.kind f.name s = .ok v) :
    ∃ m, parse_line line fields = .ok m ∧
      (m.map Prod.fst).Nodup ∧
      (∀ a, a ∈ m.map Prod.fst ↔ ∃ f ∈ fields, f.name = a) ∧
      (∀ a g, fields.reverse.find? (fun f => f.name == a) = some g →
        ∃ s v,
          byteSlice (trimEndCrlf line) (g.pos.as_range).1 (g.pos.as_range).2 = some s ∧
          coerceValue g.kind g.name s = .ok v ∧ List.lookup a m = some v) := by
  obtain ⟨m, hok, hnone, hsome, hkeys, hnd⟩ := parse_line_go_ok (trimEndCrlf line)
    (utf8Len (trimEndCrlf line)) fields [] h2 h3
  refine ⟨m, hok, hnd (by simp), fun a => ?_, hsome⟩
  have := hkeys a
  simpa using this

/-- Witness for C10 at a concrete duplicate-name schema: two specs named "a"
(character 1 and character 2 of the line "xy") parse to a single entry holding
the second spec's value. -/
theorem c10_witness :
    ∃ m, parse_line ("xy".toList)
        [⟨"a", ⟨1, 1⟩, .Alpha⟩, ⟨"a", ⟨2, 2⟩, .Alpha⟩] = .ok m ∧
      List.lookup "a" m = some (.Alpha ("y".toList)) := by
  have hs : ∀ f ∈ ([⟨"a", ⟨1, 1⟩, .Alpha⟩, ⟨"a", ⟨2, 2⟩, .Alpha⟩] : List FieldSpec),
      ∃ s v, byteSlice (trimEndCrlf ("xy".toList)) (f.pos.as_range).1 (f.pos.as_range).2
          = some s ∧ coerceValue f.kind f.name s = .ok v := by
    intro f hf
    rcases List.mem_cons.mp hf with rfl | hf'
    · exact ⟨['x'], .Alpha ['x'], by decide, by decide⟩
    · rcases List.mem_cons.mp hf' with rfl | hf''
      · exact ⟨['y'], .Alpha ['y'], by decide, by decide⟩
      · simp at hf''
  obtain ⟨m, hok, _, _, hlast⟩ := c10_parse_line_no_schema_enforcement ("xy".toList)
    [⟨"a", ⟨1, 1⟩, .Alpha⟩, ⟨"a", ⟨2, 2⟩, .Alpha⟩]
    (by intro f hf; fin_cases hf <;> decide)
    (by intro f hf; fin_cases hf <;> decide) hs
  obtain ⟨s, v, hsl, hco, hlk⟩ := hlast "a" ⟨"a", ⟨2, 2⟩, .Alpha⟩ (by decide)
  have hy : byteSlice (trimEndCrlf ("xy".toList))
      (((⟨"a", ⟨2, 2⟩, .Alpha⟩ : FieldSpec).pos.as_range).1)
      (((⟨"a", ⟨2, 2⟩, .Alpha⟩ : FieldSpec).pos.as_range).2) = some ['y'] := by decide
  rw [hy] at hsl
  have hs' : s = ['y'] := (Option.some.inj hsl).symm
  subst hs'
  have hcoy : coerceValue (⟨"a", ⟨2, 2⟩, .Alpha⟩ : FieldSpec).kind
      (⟨"a", ⟨2, 2⟩, .Alpha⟩ : FieldSpec).name ['y'] = .ok (.Alpha ['y']) := by decide
  rw [hcoy] at hco
  have hv : v = .Alpha ['y'] := (Except.ok.inj hco).symm
  subst hv
  exact ⟨m, hok, hlk⟩

/-- C7 counterexample: binding an Alpha target field "x" against a mapping
where "x" holds a `Numeric` value surfaces `InvalidUtf8`, an error naming no
field; and binding against a mapping in which "x" is absent panics instead of
surfacing any error — both contradict the claim that the surfaced error names
the field for Alpha targets as well. -/
theorem c7_counterexample :
    bindRecord [("x", .alphaT)] [("x", Value.Numeric 5)] = .error .InvalidUtf8 ∧
    errFieldName .InvalidUtf8 = none ∧
    bindRecord [("x", .alphaT)] [] = .panicked := by
  decide

/-- C7 (amended): given that every field before it binds successfully, the
binder stops at the first declared field whose `Value` is absent or of the
wrong kind, and the fields after it never influence the result; an absent
field panics (no error is surfaced); a wrong-kind value surfaces
`InvalidNumeric` naming the field for Numeric and Decimal targets, but the
field-less `InvalidUtf8` for Alpha targets. -/
theorem c7_binder_stops_at_first_mismatch (m : List (String × Value))
    (pre : List (String × BindKind)) (name : String) (k : BindKind)
    (rest rest' : List (String × BindKind))
    (hpre : ∀ t ∈ pre, ∃ v, bindField m t = .okv v) :
    (List.lookup name m = none →
       bindRecord (pre ++ (name, k) :: rest) m = .panicked) ∧
    (∀ v, List.lookup name m = some v →
      (k = .alphaT → asStr v = none →
         bindRecord (pre ++ (name, k) :: rest) m = .error .InvalidUtf8 ∧
         errFieldName .InvalidUtf8 = none) ∧
      (∀ bits sg, k = .numericT bits sg → asI64 v = none →
         bindRecord (pre ++ (name, k) :: rest) m = .error (.InvalidNumeric name []) ∧
         errFieldName (.InvalidNumeric name []) = some name) ∧
      (k = .decimalT → asF64 v = none →
         bindRecord (pre ++ (name, k) :: rest) m = .error (.InvalidNumeric name []) ∧
         errFieldName (.InvalidNumeric name []) = some name)) ∧
    ((∀ v, bindField m (name, k) ≠ .okv v) →
       bindRecord (pre ++ (name, k) :: rest) m =
         bindRecord (pre ++ (name, k) :: rest') m) := by
  obtain ⟨vs, hvs⟩ := bindRecord_append_of_ok m pre hpre
  refine ⟨?_, ?_, ?_⟩
  · intro hlook
    have hbf : bindField m (name, k) = .panicked := by simp [bindField, hlook]
    rw [hvs ((name, k) :: rest)]
    simp [bindRecord, hbf]
  · intro v hlook
    refine ⟨?_, ?_, ?_⟩
    · intro hk hstr
      subst hk
      have hbf : bindField m (name, .alphaT) = .error .InvalidUtf8 := by
        simp [bindField, hlook, hstr]
      rw [hvs ((name, BindKind.alphaT) :: rest)]
      simp [bindRecord, hbf, errFieldName]
    · intro bits sg hk hint
      subst hk
      have hbf : bindField m (name, .numericT bits sg) =
          .error (.InvalidNumeric name []) := by
        simp [bindField, hlook, hint]
      rw [hvs ((name, BindKind.numericT bits sg) :: rest)]
      simp [bindRecord, hbf, errFieldName]
    · intro hk hflt
      subst hk
      have hbf : bindField m (name, .decimalT) =
          .error (.InvalidNumeric name []) := by
        simp [bindField, hlook, hflt]
      rw [hvs ((name, BindKind.decimalT) :: rest)]
      simp [bindRecord, hbf, errFieldName]
  · intro hfail
    rw [hvs ((name, k) :: rest), hvs ((name, k) :: rest')]
    cases hbf : bindField m (name, k) with
    | panicked => simp [bindRecord, hbf]
    | error e => simp [bindRecord, hbf]
    | okv v => exact absurd hbf (hfail v)

/-- Witness for C7's amended theorem: with a successfully bound field before
it, a wrong-kind Alpha target surfaces the field-less `InvalidUtf8`. -/
theorem c7_witness :
    bindRecord [("a", .alphaT), ("x", .alphaT)]
        [("a", Value.Alpha ['z']), ("x", Value.Numeric 5)] = .error .InvalidUtf8 := by
  have h := (c7_binder_stops_at_first_mismatch
      [("a", Value.Alpha ['z']), ("x", Value.Numeric 5)]
      [("a", .alphaT)] "x" .alphaT [] []
      (by intro t ht
          simp only [List.mem_singleton] at ht
          subst ht
          exact ⟨.bstr ['z'], by decide⟩)).2.1
      (Value.Numeric 5) (by decide)
  exact (h.1 rfl (by decide)).1

/-- C8 counterexample: the claim says narrowing fails with `InvalidNumeric`
whenever the 64-bit value does not fit the target type, but binding the value
300 to an unsigned 8-bit target succeeds, wrapping to 44 (`300 as u8`). -/
theorem c8_counterexample :
    (255 : Int) < 300 ∧
    bindRecord [("x", .numericT 8 false)] [("x", Value.Numeric 300)] =
      .ok [.bint 44] := by
  decide

/-- C8 (amended): a Numeric target requires the mapped Value to be `Numeric`,
failing with `InvalidNumeric` naming the field on a kind mismatch only; the
64-bit integer is narrowed with Rust `as`-cast semantics — a two's-complement
truncation to the declared width/signedness that preserves the value exactly
when it fits the target range and otherwise wraps (never fails). -/
theorem c8_numeric_binding_wraps (m : List (String × Value)) (name : String)
    (bits : Nat) (sg : Bool) (n : Int) (v : Value) :
    (List.lookup name m = some (.Numeric n) →
       bindField m (name, .numericT bits sg) = .okv (.bint (castTrunc bits sg n))) ∧
    (List.lookup name m = some v → asI64 v = none →
       bindField m (name, .numericT bits sg) = .error (.InvalidNumeric name []) ∧
       errFieldName (.InvalidNumeric name []) = some name) ∧
    (sg = false → 0 ≤ n → n < 2 ^ bits → castTrunc bits sg n = n) ∧
    (sg = true → 1 ≤ bits → -(2 ^ (bits - 1)) ≤ n → n < 2 ^ (bits - 1) →
       castTrunc bits sg n = n) ∧
    castTrunc bits sg n % 2 ^ bits = n % 2 ^ bits := by
  refine ⟨?_, ?_, ?_, ?_, ?_⟩
  · intro hlook
    simp [bindField, hlook, asI64]
  · intro hlook hint
    simp [bindField, hlook, hint, errFieldName]
  · intro hsg h0 hlt
    subst hsg
    have hm : n % 2 ^ bits = n := Int.emod_eq_of_lt h0 hlt
    show (if (false = true) ∧ (2 : Int) ^ (bits - 1) ≤ n % 2 ^ bits
          then n % 2 ^ bits - 2 ^ bits else n % 2 ^ bits) = n
    rw [if_neg (by simp), hm]
  · intro hsg hb hlo hhi
    subst hsg
    have h2P : (2 : Int) ^ bits = 2 ^ (bits - 1) * 2 := by
      rw [← pow_succ, Nat.sub_add_cancel hb]
    have hP0 : (0 : Int) < 2 ^ (bits - 1) := by positivity
    show (if (true = true) ∧ (2 : Int) ^ (bits - 1) ≤ n % 2 ^ bits
          then n % 2 ^ bits - 2 ^ bits else n % 2 ^ bits) = n
    by_cases hn : 0 ≤ n
    · have hm : n % 2 ^ bits = n := Int.emod_eq_of_lt hn (by rw [h2P]; linarith)
      rw [hm, if_neg (by rintro ⟨-, hc⟩; linarith)]
    · push_neg at hn
      have h0' : (0 : Int) ≤ n + 2 ^ bits := by rw [h2P]; linarith
      have hlt' : n + 2 ^ bits < 2 ^ bits := by linarith
      have hm : n % 2 ^ bits = n + 2 ^ bits :=
        Int.emod_eq_add_self_emod.trans (Int.emod_eq_of_lt h0' hlt')
      rw [hm, if_pos ⟨rfl, by rw [h2P]; linarith⟩]
      exact add_sub_cancel_right n (2 ^ bits)
  · show (if (sg = true) ∧ (2 : Int) ^ (bits - 1) ≤ n % 2 ^ bits
          then n % 2 ^ bits - 2 ^ bits else n % 2 ^ bits) % 2 ^ bits = n % 2 ^ bits
    by_cases hc : (sg = true) ∧ (2 : Int) ^ (bits - 1) ≤ n % 2 ^ bits
    · rw [if_pos hc, Int.emod_sub_cancel, Int.emod_emod_of_dvd n dvd_rfl]
    · rw [if_neg hc, Int.emod_emod_of_dvd n dvd_rfl]

/-- Witness for C8's amended theorem: an in-range value (7 into a signed
16-bit target) binds to itself. -/
theorem c8_witness :
    bindField [("x", Value.Numeric 7)] ("x", .numericT 16 true) = .okv (.bint 7) := by
  have h1 := (c8_numeric_binding_wraps [("x", Value.Numeric 7)] "x" 16 true 7
      (Value.Numeric 7)).1 (by decide)
  have h2 := (c8_numeric_binding_wraps [("x", Value.Numeric 7)] "x" 16 true 7
      (Value.Numeric 7)).2.2.2.1 rfl (by decide) (by decide) (by decide)
  rw [h2] at h1
  exact h1

end Cnab
